import Mathlib

/-!
Verification of the mlelr logistic-regression program (mlelr.c, tabulate.c,
model.c, dataset.c, interface.c) against its natural-language specification.

The C sources are shallowly embedded below: machine doubles are modelled as
exact rationals (`ℚ`) except where a claim is specifically about IEEE-754
bit-level comparison semantics, in which case 64-bit patterns are modelled
as naturals below `2^64`.  Mutating loops become explicit state passing.
-/

namespace Mlelr

/-! ## Convergence driver (mlelr.c, `mlelr`, Step 7, lines 37-38 and 406-444)

The outer Newton-Raphson loop.  `mlelr` keeps the coefficient vector `beta`
(initialised to all zeros, length K·(J−1)), saves it into `beta0` at the top
of each iteration, calls `newton_raphson(..., beta0, beta, ...)` and then runs
the relative-change convergence test.  `newton_raphson` writes its result into
`beta` only on its success path; on the error returns (codes 11/12/13 at lines
699-701) it returns before the final write, so `beta` keeps the contents it had
on entry, which are exactly `beta0`.  The step is therefore modelled as a
function returning `Except Nat (List ℚ)`: an error leaves `beta` unchanged.
The driver never inspects the returned code `nrret` (line 424 assigns it; no
line reads it). -/

/-- `static const int MAX_ITER = 30;` (mlelr.c line 37). -/
def MAX_ITER : Nat := 30

/-- `static const double EPSILON = 1e-8;` (mlelr.c line 38), as an exact
rational. -/
def EPSILON : ℚ := 1 / 100000000

/-- Convergence test (mlelr.c lines 429-435): `convergence` is set to 1 and
reset to 0 as soon as some coefficient satisfies
`fabs(beta[i] - beta0[i]) > EPSILON * fabs(beta0[i])`. -/
def convTest (beta beta0 : List ℚ) : Bool :=
  !((beta.zip beta0).any fun p => decide (EPSILON * |p.2| < |p.1 - p.2|))

/-- Effect of one `newton_raphson` call on the caller's `beta` array: the new
coefficients on success, the unchanged input on an error return (the C function
returns at lines 699-701 before writing `beta1`). -/
def nrStepResult (step : List ℚ → Except Nat (List ℚ)) (beta0 : List ℚ) :
    List ℚ :=
  match step beta0 with
  | .ok b1 => b1
  | .error _ => beta0

/-- The `while (iter < MAX_ITER && !convergence)` loop (mlelr.c lines 416-444),
with `fuel = MAX_ITER - iter` remaining iterations.  Returns the final
`(beta, convergence, iter)`. -/
def nrLoop (step : List ℚ → Except Nat (List ℚ)) :
    Nat → List ℚ → Bool → Nat → List ℚ × Bool × Nat
  | 0, beta, conv, iter => (beta, conv, iter)
  | fuel + 1, beta, conv, iter =>
    if conv then (beta, conv, iter)
    else
      let beta1 := nrStepResult step beta
      nrLoop step fuel beta1 (convTest beta1 beta) (iter + 1)

/-- The full driver: `beta` initialised to zeros of length `m = K*(J-1)`
(lines 407-410), `iter = 0`, `convergence = 0` (lines 412-413), then the loop. -/
def mlelrDriver (step : List ℚ → Except Nat (List ℚ)) (m : Nat) :
    List ℚ × Bool × Nat :=
  nrLoop step MAX_ITER (List.replicate m 0) false 0

/-- The "Convergence:" line of the report (mlelr.c lines 511-515). -/
def convergenceReport (convergence : Bool) : String :=
  if convergence then "YES" else "NO"

/-- Whether the post-convergence statistics block runs (mlelr.c line 447:
`if (convergence) { ... }`, and again line 517 for the fit tests). -/
def postStats (convergence : Bool) : Bool :=
  convergence

/-! ## Linear-algebra primitives (mlelr.c lines 727-794)

`cholesky`, `backsub` and `trimult` mutate a `double **` matrix in place; a
matrix is modelled as a total function `Nat → Nat → ℚ` and each routine returns
the failure flag together with the final matrix contents.  `sqrt` has no exact
computable counterpart on `ℚ`, so it is a function parameter `sq`; none of the
verified claims depends on its values. -/

/-- Matrices indexed by row and column. -/
abbrev Mat : Type := Nat → Nat → ℚ

/-- Pointwise update of a single matrix entry. -/
def updMat (x : Mat) (r c : Nat) (v : ℚ) : Mat :=
  fun r' c' => if r' = r ∧ c' = c then v else x r' c'

/-- The running sums of `cholesky` (mlelr.c lines 734-736 and 743-745):
`colSum x i c = Σ_{j<i} x[j][i] * x[j][c]`.  With `c = i` this is the pivot
test sum; with `c = j > i` it is the inner-loop sum. -/
def colSum (x : Mat) (i c : Nat) : ℚ :=
  ((List.range i).map fun j => x j i * x j c).sum

/-- The writes performed by one iteration `i` of the outer `cholesky` loop on
the success path (mlelr.c lines 741-747): the diagonal becomes
`sqrt(x[i][i] - sum)` and, for `i < j < order`,
`x[i][j] = (x[i][j] - Σ_{k<i} x[k][i]x[k][j]) / x[i][i]` with the freshly
written diagonal as divisor.  All writes are to row `i`, and every read is
from rows `< i` or from the entry being defined, so the batched row update
below has exactly the effect of the sequential C loop. -/
def pivotRow (sq : ℚ → ℚ) (order : Nat) (x : Mat) (i : Nat) : Mat :=
  fun r c =>
    if r = i then
      if c = i then sq (x i i - colSum x i i)
      else if i < c ∧ c < order then
        (x i c - colSum x i c) / sq (x i i - colSum x i i)
      else x r c
    else x r c

/-- The outer loop of `cholesky` (mlelr.c lines 733-748) from pivot `i`
onwards.  Returns `(ret ≠ 0, final matrix)`: on `sum >= x[i][i]` the function
returns 1 immediately (line 737-740), leaving the matrix as it stands. -/
def cholGo (sq : ℚ → ℚ) (order : Nat) (x : Mat) (i : Nat) : Bool × Mat :=
  if _h : i < order then
    if x i i ≤ colSum x i i then (true, x)
    else cholGo sq order (pivotRow sq order x i) (i + 1)
  else (false, x)
termination_by order - i

/-- `static int cholesky(double **x, int order)` (mlelr.c lines 727-751). -/
def cholesky (sq : ℚ → ℚ) (x : Mat) (order : Nat) : Bool × Mat :=
  cholGo sq order x 0

/-- The writes of one iteration `i` of the outer `backsub` loop (mlelr.c lines
760-769): the diagonal becomes its reciprocal, and for `j < i`,
`x[j][i] = -(Σ_{k=j..i-1} x[j][k]x[k][i]) * x[i][i]` (with the new reciprocal
diagonal).  Reads are from rows already finished or from column `i` entries not
yet written in this iteration, so the batched update equals the C loop. -/
def backsubStep (x : Mat) (i : Nat) : Mat :=
  fun r c =>
    if r = i ∧ c = i then 1 / x i i
    else if c = i ∧ r < i then
      -(((List.range (i - r)).map fun t => x r (r + t) * x (r + t) i).sum)
        * (1 / x i i)
    else x r c

/-- The `backsub` loop from row `i` onwards (mlelr.c lines 758-770): fail with
return 1 on a zero diagonal, else replace and continue. -/
def backsubGo (order : Nat) (x : Mat) (i : Nat) : Bool × Mat :=
  if _h : i < order then
    if x i i = 0 then (true, x)
    else backsubGo order (backsubStep x i) (i + 1)
  else (false, x)
termination_by order - i

/-- `static int backsub(double **x, int order)` (mlelr.c lines 753-773).  The
`x[0][0] == 0` check of line 758 is the `i = 0` instance of the loop test. -/
def backsub (x : Mat) (order : Nat) : Bool × Mat :=
  backsubGo order x 0

/-- `static int trimult(double **in, double **out, int order)` (mlelr.c lines
775-794): `out[i][j] = Σ_{k = max(i,j)}^{order-1} in[i][k] * in[j][k]`.  It
always returns 0, so stage code 13 at line 701 is unreachable. -/
def trimult (x : Mat) (order : Nat) : Mat :=
  fun i j =>
    ((List.range (order - max i j)).map fun t =>
      x i (max i j + t) * x j (max i j + t)).sum

/-- The matrix-inversion stage of `newton_raphson` (mlelr.c lines 698-701):
`if (cholesky(H, K*(J-1))) return 11; if (backsub(...)) return 12;
if (trimult(...)) return 13;` — on success the inverse lands in `xtwx`. -/
def newton_raphson_invert (sq : ℚ → ℚ) (H : Mat) (m : Nat) :
    Except Nat Mat :=
  let c := cholesky sq H m
  if c.1 then .error 11
  else
    let b := backsub c.2 m
    if b.1 then .error 12
    else .ok (trimult b.2 m)

/-! ## The option bag (interface.c lines 1016-1056)

`get_option` scans the stored keys in insertion order and matches with
`strncmp(k, options.k[i], strlen(options.k[i])) == 0`, i.e. it compares only
the first `strlen(stored key)` characters of the query.  C strings are
NUL-terminated with no interior NUL; they are modelled as `List Char`. -/

/-- `strncmp(a, b, n) == 0` for NUL-terminated strings: characters are compared
pairwise until `n` characters matched, a mismatch occurred, or both strings
ended; if exactly one string ends within the first `n` characters its NUL
differs from the other string's character. -/
def strncmpEq : List Char → List Char → Nat → Bool
  | _, _, 0 => true
  | [], [], _ + 1 => true
  | [], _ :: _, _ + 1 => false
  | _ :: _, [], _ + 1 => false
  | a :: as, b :: bs, n + 1 => a == b && strncmpEq as bs n

/-- `char *get_option (char *k)` (interface.c lines 1016-1028) over the stored
key/value list in insertion order: the first entry whose key matches the query
under `strncmpEq _ key key.length` wins; `NULL` (here `none`) otherwise. -/
def getOption (opts : List (List Char × List Char)) (k : List Char) :
    Option (List Char) :=
  match opts with
  | [] => none
  | (key, v) :: rest =>
    if strncmpEq k key key.length then some v else getOption rest k

/-- `hasStart key k = true` iff `key` is an initial segment of `k` — the
specification-level reading of `get_option`'s matching rule. -/
def hasStart : List Char → List Char → Bool
  | [], _ => true
  | _ :: _, [] => false
  | a :: as, b :: bs => a == b && hasStart as bs

/-! ## Bit-exact comparison in the tabulator (tabulate.c lines 133-150)

The frequency-table search compares the raw observation value with an existing
key using the C `==` operator on `double`.  For IEEE-754 binary64 this is NOT
bit-pattern identity: every NaN compares unequal to everything (including a
bit-identical NaN), and `+0.0 == -0.0` although their bit patterns differ; all
other values have a unique representation, so for them `==` coincides with bit
identity.  A 64-bit pattern is modelled as a natural number (sign bit 63,
exponent bits 62-52, fraction bits 51-0). -/

/-- The pattern encodes a NaN: exponent all ones and nonzero fraction. -/
def isNaN64 (b : Nat) : Bool :=
  (b / 2 ^ 52) % 2 ^ 11 == 2 ^ 11 - 1 && b % 2 ^ 52 != 0

/-- The pattern encodes `+0.0` or `-0.0`: everything but the sign bit clear. -/
def isZero64 (b : Nat) : Bool :=
  b % 2 ^ 63 == 0

/-- The C `==` on two binary64 bit patterns. -/
def ieeeEq (a b : Nat) : Bool :=
  !isNaN64 a && !isNaN64 b && (a == b || (isZero64 a && isZero64 b))

/-- The search of tabulate.c lines 134-139 (also interface.h `find_observation`
restricted to one column): index of the first frequency-table entry whose key
compares `==` to the target. -/
def freqFindIdx (tbl : List (Nat × ℚ)) (target : Nat) : Option Nat :=
  match tbl with
  | [] => none
  | e :: rest =>
    if ieeeEq target e.1 then some 0
    else (freqFindIdx rest target).map (· + 1)

/-- Increment the weight of entry `k` of a frequency table (tabulate.c
line 149). -/
def freqBump : List (Nat × ℚ) → Nat → ℚ → List (Nat × ℚ)
  | [], _, _ => []
  | e :: rest, 0, w => (e.1, e.2 + w) :: rest
  | e :: rest, k + 1, w => e :: freqBump rest k w

/-- One frequency-table update (tabulate.c lines 141-150): accumulate into the
entry found, otherwise append a fresh `(target, weight)` row. -/
def freqUpdate (tbl : List (Nat × ℚ)) (target : Nat) (w : ℚ) :
    List (Nat × ℚ) :=
  match freqFindIdx tbl target with
  | none => tbl ++ [(target, w)]
  | some k => freqBump tbl k w

/-- Bit pattern of `-0.0`. -/
def minusZeroBits : Nat := 2 ^ 63

/-- Bit pattern of the quiet NaN `0x7ff8000000000000`. -/
def nanBits : Nat := 0x7ff8000000000000

/-! ## Tabulation and population accounting (tabulate.c `tabulate`,
mlelr.c Steps 2 and 5)

For the mass-balance claims the data values are modelled as exact rationals
(`==` on `double` becomes `=` on `ℚ`).  A dataset is its observation rows plus
the optional weight-column index (`ds->weight == -1` becomes `none`); a model
is the independent-variable column indices plus the dependent column.  The
crosstab is a list of `(key, accumulated count)` rows where `key` is the
`numiv + 1` leading columns of an xtab row and the count is its trailing
`_Count` column. -/

/-- The raw dataset handed to `tabulate` (dataset.h). -/
structure DataSet where
  obs : List (List ℚ)
  weightIdx : Option Nat

/-- The model-variable columns used by `tabulate`: dataset indices of the main
effects (`mod->iv`) and of the dependent variable (`mod->dv`). -/
structure TabModel where
  iv : List Nat
  dv : Nat

/-- Weight of one observation (tabulate.c line 119):
`(ds->weight == -1) ? 1.0 : ds->obs[i][ds->weight]`. -/
def obsWeight (ds : DataSet) (row : List ℚ) : ℚ :=
  match ds.weightIdx with
  | none => 1
  | some w => row.getD w 0

/-- The crosstab key of one observation (tabulate.c lines 125-154): the value
of each independent variable followed by the dependent value. -/
def rowKey (mod : TabModel) (row : List ℚ) : List ℚ :=
  (mod.iv.map fun j => row.getD j 0) ++ [row.getD mod.dv 0]

/-- Locate-and-increment-or-append on the crosstab (tabulate.c lines 156-164,
with `find_observation` of dataset.c comparing the key columns with `==`). -/
def xtabAdd (tbl : List (List ℚ × ℚ)) (key : List ℚ) (w : ℚ) :
    List (List ℚ × ℚ) :=
  match tbl with
  | [] => [(key, w)]
  | e :: rest =>
    if e.1 = key then (e.1, e.2 + w) :: rest else e :: xtabAdd rest key w

/-- The observation scan of `tabulate` (tabulate.c lines 116-168) restricted to
the crosstab: observations with non-positive weight are skipped by the
`if (weight > 0)` guard at line 122. -/
def buildXtab (ds : DataSet) (mod : TabModel) : List (List ℚ × ℚ) :=
  ds.obs.foldl
    (fun tbl row =>
      let w := obsWeight ds row
      if 0 < w then xtabAdd tbl (rowKey mod row) w else tbl)
    []

/-- Locate-and-increment-or-append on a per-variable frequency table
(tabulate.c lines 133-150), at the exact-value level. -/
def freqAddQ (tbl : List (ℚ × ℚ)) (v w : ℚ) : List (ℚ × ℚ) :=
  match tbl with
  | [] => [(v, w)]
  | e :: rest =>
    if e.1 = v then (e.1, e.2 + w) :: rest else e :: freqAddQ rest v w

/-- The observation scan of `tabulate` restricted to the frequency table of the
dataset column `var` (one of `mod->iv[j]` or `mod->dv`); same positive-weight
guard as the crosstab. -/
def buildFreqQ (ds : DataSet) (var : Nat) : List (ℚ × ℚ) :=
  ds.obs.foldl
    (fun tbl row =>
      let w := obsWeight ds row
      if 0 < w then freqAddQ tbl (row.getD var 0) w else tbl)
    []

/-- Lexicographic comparison of two key lists, as `compare_obs` (dataset.c
lines 337-354) orders xtab rows over the key columns. -/
def keyLe : List ℚ → List ℚ → Bool
  | [], _ => true
  | _ :: _, [] => true
  | a :: as, b :: bs => if a = b then keyLe as bs else decide (a < b)

/-- `sort_dataset(mod->xtab, 1 + mod->numiv)` (tabulate.c line 174): reorder
the crosstab rows by their keys; the row multiset is preserved. -/
def sortXtab (tbl : List (List ℚ × ℚ)) : List (List ℚ × ℚ) :=
  tbl.mergeSort fun a b => keyLe a.1 b.1

/-- `M` (mlelr.c lines 129 and 147): the count of the first xtab row plus the
counts of all the following rows.  The C code reads `xtab[0]` unconditionally,
so it presumes a nonempty crosstab; the `[]` case below is outside the C
behaviour. -/
def computeM : List (List ℚ × ℚ) → ℚ
  | [] => 0
  | e :: rest => rest.foldl (fun m f => m + f.2) e.2

/-- The population-change test of mlelr.c lines 135-143: some independent
variable (all key columns except the last, the dependent) differs from the
previous row. -/
def popChange (prev cur : List ℚ) : Bool :=
  (prev.dropLast.zip cur.dropLast).any fun p => decide (p.1 ≠ p.2)

/-- The scan of mlelr.c lines 133-148 from the second row on: `n` is the
running population count `N`; each row is assigned index `N - 1` after the
optional increment.  Returns the assigned indices and the final `N`. -/
def popScan (prev : List ℚ) (rows : List (List ℚ)) (n : Nat) :
    List Nat × Nat :=
  match rows with
  | [] => ([], n)
  | k :: ks =>
    let n' := if popChange prev k then n + 1 else n
    let rest := popScan k ks n'
    ((n' - 1) :: rest.1, rest.2)

/-- Population segmentation (mlelr.c lines 125-148): the first row gets index 0
with `N = 1`; an empty crosstab keeps the initial `N = 1` (the C code would
read out of bounds there). -/
def popSegments : List (List ℚ) → List Nat × Nat
  | [] => ([], 1)
  | k0 :: ks => let rest := popScan k0 ks 1; (0 :: rest.1, rest.2)

/-- The population totals `n[p]` (mlelr.c lines 284-293): for every xtab row
`i`, `Y[xr][j]` is assigned the row's count `xtab[i][xtabcols-1]` and then
`n[xr] += Y[xr][j]` with `xr = popindex[i]`, so each row adds its count to its
population's total exactly once. -/
def popTotal (tbl : List (List ℚ × ℚ)) (p : Nat) : ℚ :=
  ((((popSegments (tbl.map Prod.fst)).1.zip (tbl.map Prod.snd)).filter
      fun e => e.1 == p).map Prod.snd).sum

/-- The sum of the weights of exactly the positive-weight observations — the
specification-level right-hand side of `Σ_i n_i = M = Σ of all positive
weights`. -/
def posWeightSum (ds : DataSet) : ℚ :=
  ((ds.obs.filter fun row => decide (0 < obsWeight ds row)).map
      fun row => obsWeight ds row).sum

/-- The dataset with the non-positive-weight observations removed. -/
def dsFilterPos (ds : DataSet) : DataSet :=
  ⟨ds.obs.filter fun row => decide (0 < obsWeight ds row), ds.weightIdx⟩

/-! ## Categorical encoding (mlelr.c lines 259-277)

For a categorical variable the design matrix gets `levels - 1` columns; column
`k` is filled from the sorted frequency table `freq` of that variable by the
chain of lines 269-274.  `dummy` is set when `get_option("params")` equals
`"dummy"` (lines 230-233). -/

/-- The value written into encoding column `k` (mlelr.c lines 269-274), where
`freq` is the sorted list of the variable's distinct levels and `v` the
current observation value. -/
def encodeCat (dummy : Bool) (freq : List ℚ) (v : ℚ) (k : Nat) : ℚ :=
  if v = freq.getD k 0 then 1
  else if !dummy && decide (v = freq.getD (freq.length - 1) 0) then -1
  else 0

/-- `freq[levels - 1][0]`, the level the code uses as the reference (mlelr.c
line 271). -/
def largestLevel (freq : List ℚ) : ℚ :=
  freq.getD (freq.length - 1) 0

/-- Strict ascending sortedness of a level list — the state `sort_dataset`
(tabulate.c lines 171-173) leaves each frequency table in, the keys being
pairwise distinct by construction. -/
def sortedStrict : List ℚ → Bool
  | [] => true
  | [_] => true
  | a :: b :: rest => decide (a < b) && sortedStrict (b :: rest)

/-! ## Design-matrix column count (mlelr.c lines 156-180)

`K` starts at 1 for the intercept; each direct main effect adds 1 and each
categorical main effect adds `levels - 1`; each interaction adds the product of
`levels - 1` over its non-direct terms.  The counts are C `int`s, so the
arithmetic is over `ℤ` (`mod->freqs[i]->n` is a nonnegative row count). -/

/-- The main-effects accumulation of mlelr.c lines 159-170, indexing the
`direct` flags and the per-variable level counts by `i < numiv`. -/
def kMain (direct : List Bool) (levels : List Nat) : ℤ :=
  (List.range direct.length).foldl
    (fun K i =>
      K + if direct.getD i false then 1 else (levels.getD i 0 : ℤ) - 1)
    1

/-- The per-interaction column count of mlelr.c lines 174-179: `k = 1`, then
`k *= levels[term] - 1` for every non-direct term. -/
def kInt (direct : List Bool) (levels : List Nat) (terms : List Nat) : ℤ :=
  terms.foldl
    (fun k t =>
      if !direct.getD t false then k * ((levels.getD t 0 : ℤ) - 1) else k)
    1

/-- The number of design-matrix columns `K` (mlelr.c lines 156-180). -/
def computeK (direct : List Bool) (levels : List Nat)
    (ints : List (List Nat)) : ℤ :=
  ints.foldl (fun K g => K + kInt direct levels g) (kMain direct levels)

/-! ## `add_model_variable` (model.c lines 85-219)

The function resolves `varname` to the dataset index `varidx`; the claims below
concern the non-dependent path, so the embedding takes `varidx` directly.  The
local `int ividx` (line 87) is assigned only inside the main-effects search
(line 131); on the not-found path it keeps its indeterminate initial contents,
modelled by the extra parameter `ividx0`, and that value is what lines 181 and
208 store into the interaction. -/

inductive VarType where
  | MAIN
  | DIRECT
  | NEW_INTERACTION
  | INTERACTION
deriving DecidableEq

/-- The model fields touched by `add_model_variable` (model.h). -/
structure CModel where
  iv : List ℤ
  ivnames : List String
  direct : List Bool
  ints : List (List ℤ)
  intnames : List String
deriving DecidableEq

/-- The main-effects search of model.c lines 128-134: first `i` with
`varidx == mod->iv[i]`. -/
def searchIv (iv : List ℤ) (varidx : ℤ) : Option Nat :=
  match iv with
  | [] => none
  | x :: rest =>
    if x = varidx then some 0 else (searchIv rest varidx).map (· + 1)

/-- Lines 166-187: push a fresh one-term interaction holding `ividx`. -/
def pushNewInt (m : CModel) (varname : String) (ividx : ℤ) : CModel :=
  { m with ints := m.ints ++ [[ividx]], intnames := m.intnames ++ [varname] }

/-- Lines 189-216: append `ividx` to the latest interaction unless it is
already among its terms (lines 193-204 warn and return unchanged). -/
def pushLastInt (m : CModel) (varname : String) (ividx : ℤ) : CModel :=
  match m.ints.getLast? with
  | none => m
  | some terms =>
    if ividx ∈ terms then m
    else
      { m with
        ints := m.ints.dropLast ++ [terms ++ [ividx]],
        intnames :=
          m.intnames.dropLast ++
            [(m.intnames.getLastD "") ++ "*" ++ varname] }

/-- `add_model_variable` (model.c lines 85-219) for the non-DEPENDENT variable
types, after `find_varname` resolved `varname` to `varidx`.  `ividx0` is the
indeterminate initial value of the local `ividx`. -/
def addModelVariable (m : CModel) (varname : String) (varidx : ℤ)
    (vartype : VarType) (ividx0 : ℤ) : CModel :=
  let fidx := searchIv m.iv varidx
  let ividx : ℤ :=
    match fidx with
    | some i => (i : ℤ)
    | none => ividx0
  let m1 :=
    match fidx with
    | some _ => m
    | none =>
      { m with
        iv := m.iv ++ [varidx],
        ivnames := m.ivnames ++ [varname],
        direct := m.direct ++ [vartype == VarType.DIRECT] }
  match vartype with
  | .MAIN => m1
  | .DIRECT => m1
  | .NEW_INTERACTION => pushNewInt m1 varname ividx
  | .INTERACTION => pushLastInt m1 varname ividx

/-! # Theorems -/

/-! ## General helper lemmas -/

theorem foldl_add_eq {M : Type} [AddCommMonoid M] {α : Type} (f : α → M) :
    ∀ (l : List α) (a : M), l.foldl (fun s x => s + f x) a = a + (l.map f).sum
  | [], a => by simp
  | x :: l, a => by
    rw [List.foldl_cons, foldl_add_eq f l (a + f x), List.map_cons,
      List.sum_cons, add_assoc]

theorem foldl_mul_eq {M : Type} [CommMonoid M] {α : Type} (f : α → M) :
    ∀ (l : List α) (a : M), l.foldl (fun s x => s * f x) a = a * (l.map f).prod
  | [], a => by simp
  | x :: l, a => by
    rw [List.foldl_cons, foldl_mul_eq f l (a * f x), List.map_cons,
      List.prod_cons, mul_assoc]

/-! ## Claim C1

If a Newton-Raphson step returns a nonzero error code, the driver is supposed
to exit with `converged = false` and report `Convergence: NO` with no
post-convergence statistics.  The C code never inspects `nrret` (mlelr.c line
424 assigns it, nothing reads it); because `newton_raphson` returns before
writing `beta1` on its error paths, `beta` keeps the saved value `beta0`, the
relative-change test at lines 429-435 then passes vacuously, and the loop exits
with `convergence = 1`. -/

/-- Claim C1 (code bug): run the driver with a Newton-Raphson step that fails
with stage code 11 at the very first iteration (coefficient length 2).  The
loop exits after one iteration with `convergence = 1`, the report prints
`Convergence: YES`, and the post-convergence statistics block runs — the exact
opposite of the claimed behaviour. -/
theorem driver_error_code_reports_convergence_yes :
    mlelrDriver (fun _ => Except.error 11) 2 = ([0, 0], true, 1) ∧
    convergenceReport (mlelrDriver (fun _ => Except.error 11) 2).2.1 = "YES" ∧
    postStats (mlelrDriver (fun _ => Except.error 11) 2).2.1 = true := by
  refine ⟨?_, ?_, ?_⟩ <;>
    simp [mlelrDriver, MAX_ITER, nrLoop, nrStepResult, convTest, EPSILON,
      List.replicate, convergenceReport, postStats]

/-! ## Claim C2

`add_model_variable` with an interaction type and an unregistered variable:
the variable is indeed appended to the main-effect arrays, but the term stored
in the interaction is the local `ividx`, which on this path was never assigned
(model.c line 87 declares it; only line 131, inside the found-branch of the
search, assigns it).  The stored term is therefore the indeterminate stale
value, not the index of the newly registered main effect. -/

/-- Claim C2 (code bug): on an empty model, adding dataset variable 0 as a
NEW_INTERACTION registers the main effect (`iv = [0]`, categorical), but the
interaction stores whatever indeterminate value `ividx0` the uninitialised
local happened to hold — `[[ividx0]]` for every `ividx0` — rather than the
index 0 of the newly registered main effect. -/
theorem add_interaction_unregistered_stores_stale_index :
    (∀ g : ℤ,
      (addModelVariable ⟨[], [], [], [], []⟩ "a" 0 .NEW_INTERACTION g).iv = [0] ∧
      (addModelVariable ⟨[], [], [], [], []⟩ "a" 0 .NEW_INTERACTION g).direct
          = [false] ∧
      (addModelVariable ⟨[], [], [], [], []⟩ "a" 0 .NEW_INTERACTION g).ints
          = [[g]]) ∧
    (addModelVariable ⟨[], [], [], [], []⟩ "a" 0 .NEW_INTERACTION 7).ints
      ≠ [[0]] := by
  exact ⟨fun g => ⟨rfl, rfl, rfl⟩, by decide⟩

/-! ## Claim C7: the design-matrix column count -/

theorem kMain_indices_to_zip (d : List Bool) :
    ∀ l : List Nat,
      (List.range d.length).map
          (fun i => if d.getD i false then (1 : ℤ) else (l.getD i 0 : ℤ) - 1)
        = (d.zip l).map (fun p => if p.1 then (1 : ℤ) else (p.2 : ℤ) - 1) ∨
      l.length ≠ d.length := by
  induction d with
  | nil => intro l; left; simp
  | cons b d ih =>
    intro l
    match l with
    | [] => right; simp
    | c :: l =>
      rcases ih l with h | h
      · left
        rw [List.length_cons, List.range_succ_eq_map, List.map_cons,
          List.map_map, List.zip_cons_cons, List.map_cons]
        refine congrArg₂ _ (by simp) ?_
        rw [← h]
        exact List.map_congr_left fun i _ => by simp
      · right; simpa using h

/-- Claim C7: `K` as computed by mlelr.c lines 156-180 equals 1 (intercept)
plus, per main effect, 1 if direct and `L - 1` if categorical, plus, per
interaction, the product over its terms of the term's column count (factor 1
for a direct term, `L - 1` for a categorical one); in particular two
interacting categorical variables with 3 and 4 levels give `K = 12`. -/
theorem computeK_closed_form (direct : List Bool) (levels : List Nat)
    (ints : List (List Nat)) (hlen : levels.length = direct.length) :
    computeK direct levels ints
        = 1 +
          ((direct.zip levels).map
            (fun p => if p.1 then (1 : ℤ) else (p.2 : ℤ) - 1)).sum +
          (ints.map
            (fun g => (g.map fun t =>
              if direct.getD t false then (1 : ℤ)
              else (levels.getD t 0 : ℤ) - 1).prod)).sum ∧
      computeK [false, false] [3, 4] [[0, 1]] = 12 := by
  constructor
  · have hmain : kMain direct levels
        = 1 + ((direct.zip levels).map
            (fun p => if p.1 then (1 : ℤ) else (p.2 : ℤ) - 1)).sum := by
      rw [kMain, foldl_add_eq]
      rcases kMain_indices_to_zip direct levels with h | h
      · rw [h]
      · exact absurd hlen h
    have hint : ∀ g : List Nat,
        kInt direct levels g
          = (g.map fun t =>
              if direct.getD t false then (1 : ℤ)
              else (levels.getD t 0 : ℤ) - 1).prod := by
      intro g
      have hstep : (fun (k : ℤ) (t : Nat) =>
            if !direct.getD t false then k * ((levels.getD t 0 : ℤ) - 1) else k)
          = fun (k : ℤ) (t : Nat) =>
            k * (if direct.getD t false then (1 : ℤ)
                 else (levels.getD t 0 : ℤ) - 1) := by
        funext k t
        by_cases h : direct.getD t false <;>
          simp only [List.getD_eq_getElem?_getD] at h <;> simp [h]
      rw [kInt, hstep, foldl_mul_eq, one_mul]
    rw [computeK, foldl_add_eq, hmain]
    refine congrArg₂ _ rfl (congrArg _ (List.map_congr_left fun g _ => hint g))
  · decide

/-- Witness for claim C7's theorem at a concrete input with the level-count
hypothesis discharged. -/
theorem computeK_closed_form_witness :
    ([3, 4] : List Nat).length = ([false, false] : List Bool).length ∧
    computeK [false, false] [3, 4] [[0, 1]] = 12 :=
  ⟨rfl, (computeK_closed_form [false, false] [3, 4] [[0, 1]] rfl).2⟩

/-! ## Claim C9: `get_option` and stored-key matching -/

theorem strncmpEq_full (key : List Char) :
    ∀ k : List Char, strncmpEq k key key.length = hasStart key k := by
  induction key with
  | nil => intro k; cases k <;> rfl
  | cons b bs ih =>
    intro k
    cases k with
    | nil => rfl
    | cons a as =>
      show (a == b && strncmpEq as bs bs.length) = (b == a && hasStart bs as)
      rw [ih as, Bool.beq_comm]

theorem hasStart_iff (key : List Char) :
    ∀ k : List Char, hasStart key k = true ↔ ∃ t, k = key ++ t := by
  induction key with
  | nil =>
    intro k
    exact ⟨fun _ => ⟨k, (List.nil_append k).symm⟩, fun _ => rfl⟩
  | cons b bs ih =>
    intro k
    cases k with
    | nil =>
      simp only [hasStart]
      constructor
      · intro h; exact absurd h (by simp)
      · rintro ⟨t, ht⟩; exact absurd ht (by simp)
    | cons a as =>
      show (b == a && hasStart bs as) = true ↔ _
      rw [Bool.and_eq_true, beq_iff_eq, ih as]
      constructor
      · rintro ⟨rfl, t, rfl⟩; exact ⟨t, rfl⟩
      · rintro ⟨t, ht⟩
        rw [List.cons_append] at ht
        exact ⟨(List.cons.injEq .. ▸ ht).1.symm, t,
          (List.cons.injEq .. ▸ ht).2⟩

/-- Claim C9: `get_option` needs no exact key match.  It returns the value of
the first stored option whose full stored key is an initial segment of the
queried string (the `strncmp` over the stored key's length is exactly the
initial-segment test), and returns `NULL` only when no stored key is an
initial segment of the query; consequently, with a stored key `"par"` sitting
before `"params"`, looking up `"params"` yields the `"par"` option's value. -/
theorem getOption_first_stored_key_match :
    (∀ key k : List Char, hasStart key k = true ↔ ∃ t, k = key ++ t) ∧
    (∀ (opts : List (List Char × List Char)) (k : List Char),
      getOption opts k = (opts.find? fun e => hasStart e.1 k).map Prod.snd) ∧
    (∀ (opts : List (List Char × List Char)) (k : List Char),
      getOption opts k = none ↔ ∀ e ∈ opts, ¬ ∃ t, k = e.1 ++ t) ∧
    getOption
        [(['p', 'a', 'r'], ['x']),
         (['p', 'a', 'r', 'a', 'm', 's'],
          ['c', 'e', 'n', 't', 'e', 'r', 'p', 'o', 'i', 'n', 't'])]
        ['p', 'a', 'r', 'a', 'm', 's']
      = some ['x'] := by
  have hfind : ∀ (opts : List (List Char × List Char)) (k : List Char),
      getOption opts k = (opts.find? fun e => hasStart e.1 k).map Prod.snd := by
    intro opts k
    induction opts with
    | nil => rfl
    | cons e rest ih =>
      rw [getOption, List.find?_cons, strncmpEq_full]
      cases h : hasStart e.1 k <;> simp [h, ih]
  refine ⟨hasStart_iff, hfind, ?_, by decide⟩
  intro opts k
  rw [hfind, Option.map_eq_none', List.find?_eq_none]
  exact forall₂_congr fun e _ => by simp [← hasStart_iff e.1 k]

/-- Witness for claim C9's theorem: a lookup hitting the first stored key and a
lookup missing every stored key, both obtained from the theorem. -/
theorem getOption_first_stored_key_match_witness :
    getOption [(['p', 'a'], ['y'])] ['p', 'a', 'r']
        = ((([(['p', 'a'], ['y'])]).find? fun e => hasStart e.1 ['p', 'a', 'r']).map
            Prod.snd) ∧
    (getOption [(['p', 'a'], ['y'])] ['q'] = none ↔
      ∀ e ∈ [(['p', 'a'], ['y'])], ¬ ∃ t, ['q'] = e.1 ++ t) :=
  ⟨getOption_first_stored_key_match.2.1 [(['p', 'a'], ['y'])] ['p', 'a', 'r'],
   getOption_first_stored_key_match.2.2.1 [(['p', 'a'], ['y'])] ['q']⟩

/-! ## Claim C3: value equality in the frequency tables -/

theorem isZero64_not_isNaN64 {b : Nat} (h : isZero64 b = true) :
    isNaN64 b = false := by
  rw [isZero64, beq_iff_eq] at h
  have hd : 2 ^ 63 ∣ b := Nat.dvd_of_mod_eq_zero h
  obtain ⟨q, rfl⟩ := hd
  have h52 : 2 ^ 63 * q / 2 ^ 52 = 2 ^ 11 * q := by
    have : (2 : Nat) ^ 63 = 2 ^ 52 * 2 ^ 11 := by norm_num
    rw [this, mul_assoc, Nat.mul_div_cancel_left _ (by positivity)]
  rw [isNaN64, h52]
  simp [Nat.mul_mod_right]

theorem ieeeEq_cases (u v : Nat) :
    ieeeEq v u = ((u == v && !isNaN64 u) || (isZero64 u && isZero64 v)) := by
  rw [ieeeEq]
  by_cases he : u = v
  · subst he
    cases hn : isNaN64 u
    · simp [hn]
    · cases hz : isZero64 u
      · simp [hn, hz]
      · exact absurd (isZero64_not_isNaN64 hz) (by simp [hn])
  · have h1 : (u == v) = false := by simpa using he
    have h2 : (v == u) = false := by simpa using Ne.symm he
    rw [h1, h2]
    cases hzu : isZero64 u <;> cases hzv : isZero64 v
    · simp
    · simp
    · simp
    · simp [isZero64_not_isNaN64 hzu, isZero64_not_isNaN64 hzv, Bool.and_comm]

/-- Claim C3, corrected: the frequency-table search of `tabulate` accumulates
an incoming value `v` into the first existing entry `u` such that `u` and `v`
compare equal under IEEE-754 `==` — identical bit patterns that are not NaN,
or two (possibly differently signed) zeros; bit-identical NaN keys never
match, and `+0.0` and `-0.0` share one entry despite distinct bit patterns.
A new entry is appended exactly when no stored key satisfies this. -/
theorem freq_accumulation_is_ieee_equality :
    (∀ (tbl : List (Nat × ℚ)) (v : Nat),
      freqFindIdx tbl v
        = tbl.findIdx? fun e =>
            (e.1 == v && !isNaN64 e.1) || (isZero64 e.1 && isZero64 v)) ∧
    (∀ (tbl : List (Nat × ℚ)) (v : Nat) (w : ℚ),
      (freqFindIdx tbl v = none → freqUpdate tbl v w = tbl ++ [(v, w)]) ∧
      ∀ k, freqFindIdx tbl v = some k → freqUpdate tbl v w = freqBump tbl k w) := by
  constructor
  · intro tbl v
    induction tbl with
    | nil => rfl
    | cons e rest ih =>
      rw [freqFindIdx, List.findIdx?_cons, ieeeEq_cases e.1 v]
      cases h : ((e.1 == v && !isNaN64 e.1) || (isZero64 e.1 && isZero64 v)) <;>
        simp [h, ih]
  · intro tbl v w
    exact ⟨fun h => by rw [freqUpdate, h], fun k h => by rw [freqUpdate, h]⟩

/-- Witness for claim C3's theorem: the characterisation applied to a table
holding the `+0.0` bit pattern and an incoming `-0.0`, and the update equation
on a missing key. -/
theorem freq_accumulation_is_ieee_equality_witness :
    freqFindIdx [(0, 1)] minusZeroBits
        = ([((0 : Nat), (1 : ℚ))].findIdx? fun e =>
            (e.1 == minusZeroBits && !isNaN64 e.1) ||
              (isZero64 e.1 && isZero64 minusZeroBits)) ∧
    (freqFindIdx [(nanBits, 1)] nanBits = none →
      freqUpdate [(nanBits, 1)] nanBits 1 = [(nanBits, 1)] ++ [(nanBits, 1)]) :=
  ⟨freq_accumulation_is_ieee_equality.1 [(0, 1)] minusZeroBits,
   (freq_accumulation_is_ieee_equality.2 [(nanBits, 1)] nanBits 1).1⟩

/-- Claim C3, counterexample to the bit-exactness reading: `-0.0`
(pattern `2^63`) is accumulated into the entry of `+0.0` (pattern `0`)
although the raw bit patterns differ, and a bit-identical NaN pattern fails to
match its own entry, so matching is not raw 64-bit pattern identity. -/
theorem freq_bit_equality_counterexample :
    freqUpdate [(0, 1)] minusZeroBits 1 = [(0, 2)] ∧
    minusZeroBits ≠ 0 ∧
    freqFindIdx [(nanBits, 1)] nanBits = none := by
  refine ⟨?_, by decide, ?_⟩
  · norm_num [freqUpdate, freqFindIdx, freqBump, ieeeEq, isNaN64, isZero64,
      minusZeroBits]
  · norm_num [freqFindIdx, ieeeEq, isNaN64, isZero64, nanBits]

/-! ## Claim C4: categorical encoding columns -/

theorem sortedStrict_pairwise :
    ∀ l : List ℚ, sortedStrict l = true → l.Pairwise (· < ·)
  | [], _ => List.Pairwise.nil
  | [_], _ => by simp
  | a :: b :: rest, h => by
    rw [sortedStrict, Bool.and_eq_true, decide_eq_true_eq] at h
    have ih := sortedStrict_pairwise (b :: rest) h.2
    refine List.Pairwise.cons ?_ ih
    intro u hu
    rcases List.mem_cons.mp hu with rfl | hu
    · exact h.1
    · exact h.1.trans (List.rel_of_pairwise_cons ih hu)

/-- Claim C4: for a categorical main effect with sorted distinct levels and
`k + 1 < L`, mlelr.c lines 265-277 write into encoding column `k` the value 1
when the observation value equals level `k`; under the default center-point
scheme the value −1 when it equals the reference `freq[L-1]` — which is the
largest level — and 0 otherwise; under the dummy scheme 0 in every
non-matching case. -/
theorem encodeCat_matches_spec_table (dummy : Bool) (freq : List ℚ) (v : ℚ)
    (k : Nat) (hsort : sortedStrict freq = true) (hk : k + 1 < freq.length) :
    (largestLevel freq ∈ freq ∧ ∀ u ∈ freq, u ≤ largestLevel freq) ∧
    (v = freq.getD k 0 → encodeCat dummy freq v k = 1) ∧
    (v = largestLevel freq → encodeCat false freq v k = -1) ∧
    (v ≠ freq.getD k 0 → v ≠ largestLevel freq → encodeCat false freq v k = 0) ∧
    (v ≠ freq.getD k 0 → encodeCat true freq v k = 0) := by
  have hpw := sortedStrict_pairwise freq hsort
  have hlast : freq.length - 1 < freq.length := by omega
  have hkn : k < freq.length := by omega
  have hgetlast : largestLevel freq = freq[freq.length - 1] :=
    List.getD_eq_getElem freq 0 hlast
  have hgetk : freq.getD k 0 = freq[k] := List.getD_eq_getElem freq 0 hkn
  have hklt : freq.getD k 0 < largestLevel freq := by
    rw [hgetk, hgetlast]
    exact List.pairwise_iff_getElem.mp hpw k (freq.length - 1) hkn hlast
      (by omega)
  refine ⟨⟨?_, ?_⟩, ?_, ?_, ?_, ?_⟩
  · rw [hgetlast]; exact List.getElem_mem hlast
  · intro u hu
    obtain ⟨i, hi, rfl⟩ := List.mem_iff_getElem.mp hu
    rcases eq_or_lt_of_le (by omega : i ≤ freq.length - 1) with he | hlt
    · subst he; rw [hgetlast]
    · rw [hgetlast]
      exact le_of_lt
        (List.pairwise_iff_getElem.mp hpw i (freq.length - 1) hi hlast hlt)
  · intro h
    rw [encodeCat, if_pos h]
  · intro h
    have hne : v ≠ freq.getD k 0 := by
      rw [h]; exact (ne_of_gt hklt)
    rw [encodeCat, if_neg hne, largestLevel] at *
    simp [h]
  · intro h1 h2
    rw [largestLevel] at h2
    simp only [List.getD_eq_getElem?_getD] at h1 h2
    simp [encodeCat, h1, h2]
  · intro h1
    simp only [List.getD_eq_getElem?_getD] at h1
    simp [encodeCat, h1]

/-- Witness for claim C4's theorem at levels `[1, 2, 3]`: the reference value
for column 0 is the largest level 3, coded −1 under center-point, and the
middle level 2 codes 0 in column 0. -/
theorem encodeCat_matches_spec_table_witness :
    sortedStrict [(1 : ℚ), 2, 3] = true ∧ 0 + 1 < ([(1 : ℚ), 2, 3]).length ∧
    encodeCat false [(1 : ℚ), 2, 3] 3 0 = -1 ∧
    encodeCat false [(1 : ℚ), 2, 3] 2 0 = 0 :=
  ⟨by decide, by decide,
   (encodeCat_matches_spec_table false [(1 : ℚ), 2, 3] 3 0 (by decide)
       (by decide)).2.2.1 (by decide),
   (encodeCat_matches_spec_table false [(1 : ℚ), 2, 3] 2 0 (by decide)
       (by decide)).2.2.2.1 (by decide) (by decide)⟩

/-! ## Claim C8: iteration bound and convergence test of the driver -/

theorem nrLoop_iter_le (step : List ℚ → Except Nat (List ℚ)) :
    ∀ (fuel : Nat) (beta : List ℚ) (conv : Bool) (iter : Nat),
      (nrLoop step fuel beta conv iter).2.2 ≤ iter + fuel := by
  intro fuel
  induction fuel with
  | zero => intro beta conv iter; simp [nrLoop]
  | succ n ih =>
    intro beta conv iter
    rw [nrLoop]
    cases conv
    · simp only [Bool.false_eq_true, if_false]
      exact le_trans (ih _ _ _) (by omega)
    · simp [nrLoop]

/-- Claim C8: the driver runs at most `MAX_ITER = 30` Newton-Raphson
iterations; each pass replaces `beta` by the step result and recomputes the
convergence flag, which is true exactly when every coefficient satisfies
`|beta[i] - beta_prev[i]| ≤ EPSILON * |beta_prev[i]|` with
`EPSILON = 1e-8`; and the loop returns immediately once the flag is true. -/
theorem driver_bound_and_convergence_semantics :
    MAX_ITER = 30 ∧ EPSILON = 1 / 100000000 ∧
    (∀ (step : List ℚ → Except Nat (List ℚ)) (m : Nat),
      (mlelrDriver step m).2.2 ≤ MAX_ITER) ∧
    (∀ (step : List ℚ → Except Nat (List ℚ)) (fuel : Nat) (beta : List ℚ)
        (iter : Nat),
      nrLoop step (fuel + 1) beta false iter
        = nrLoop step fuel (nrStepResult step beta)
            (convTest (nrStepResult step beta) beta) (iter + 1)) ∧
    (∀ (step : List ℚ → Except Nat (List ℚ)) (fuel : Nat) (beta : List ℚ)
        (iter : Nat),
      nrLoop step fuel beta true iter = (beta, true, iter)) ∧
    (∀ beta beta0 : List ℚ,
      convTest beta beta0 = true ↔
        ∀ p ∈ beta.zip beta0, |p.1 - p.2| ≤ EPSILON * |p.2|) := by
  refine ⟨rfl, rfl, ?_, ?_, ?_, ?_⟩
  · intro step m
    exact le_trans (nrLoop_iter_le step MAX_ITER (List.replicate m 0) false 0)
      (by omega)
  · intro step fuel beta iter
    rfl
  · intro step fuel beta iter
    cases fuel <;> rfl
  · intro beta beta0
    rw [convTest, Bool.not_eq_true', List.any_eq_false]
    refine forall₂_congr fun p _ => ?_
    rw [decide_eq_true_eq, not_lt]

/-- Witness for claim C8's theorem: the bound and the exit-on-converged
equation at concrete inputs, via the theorem. -/
theorem driver_bound_and_convergence_semantics_witness :
    (mlelrDriver (fun b => Except.ok b) 1).2.2 ≤ MAX_ITER ∧
    nrLoop (fun b => Except.ok b) 5 [1] true 3 = ([1], true, 3) :=
  ⟨driver_bound_and_convergence_semantics.2.2.1 (fun b => Except.ok b) 1,
   driver_bound_and_convergence_semantics.2.2.2.2.1 (fun b => Except.ok b) 4
     [1] 3⟩

/-! ## Claims C6 and C10: the Cholesky factorization

The shared workhorse is `cholGo_master`, an invariant of the pivot loop proved
by induction on the remaining pivots: (1) entries in rows below the current
pivot, and strictly-below-diagonal entries everywhere, are never written;
(2) the loop returns 1 exactly when some pivot `p` is reached with every
earlier test passing and `Σ_{j<p} U[j][p]² ≥ A[p][p]`, in which case rows
`≥ p` still hold their input values; (3) on success every pivot test passed
and each diagonal entry holds `sqrt(A[q][q] − Σ_{j<q} U[j][q]²)`.  Because
rows `< q` are frozen once pivot `q` starts, the sums can be read off the
final matrix. -/

theorem cholGo_fail_eq (sq : ℚ → ℚ) (order : Nat) (x : Mat) (i : Nat)
    (h : i < order) (ht : x i i ≤ colSum x i i) :
    cholGo sq order x i = (true, x) := by
  rw [cholGo, dif_pos h, if_pos ht]

theorem cholGo_cont_eq (sq : ℚ → ℚ) (order : Nat) (x : Mat) (i : Nat)
    (h : i < order) (ht : ¬x i i ≤ colSum x i i) :
    cholGo sq order x i = cholGo sq order (pivotRow sq order x i) (i + 1) := by
  conv_lhs => rw [cholGo]
  rw [dif_pos h, if_neg ht]

theorem cholGo_done_eq (sq : ℚ → ℚ) (order : Nat) (x : Mat) (i : Nat)
    (h : ¬i < order) : cholGo sq order x i = (false, x) := by
  rw [cholGo, dif_neg h]

theorem pivotRow_off (sq : ℚ → ℚ) (order : Nat) (x : Mat) (i r c : Nat)
    (h : r ≠ i) : pivotRow sq order x i r c = x r c := by
  rw [pivotRow, if_neg h]

theorem pivotRow_low (sq : ℚ → ℚ) (order : Nat) (x : Mat) (i r c : Nat)
    (h : c < r) : pivotRow sq order x i r c = x r c := by
  rw [pivotRow]
  by_cases hr : r = i
  · subst hr
    rw [if_pos rfl, if_neg (by omega), if_neg (by omega)]
  · rw [if_neg hr]

theorem pivotRow_diag (sq : ℚ → ℚ) (order : Nat) (x : Mat) (i : Nat) :
    pivotRow sq order x i i i = sq (x i i - colSum x i i) := by
  rw [pivotRow, if_pos rfl, if_pos rfl]

theorem cholGo_master (sq : ℚ → ℚ) (order : Nat) :
    ∀ (fuel i : Nat) (x : Mat), order - i ≤ fuel →
      (∀ r c, r < i ∨ c < r → (cholGo sq order x i).2 r c = x r c) ∧
      ((cholGo sq order x i).1 = true ↔
        ∃ p, i ≤ p ∧ p < order ∧
          (∀ q, i ≤ q → q < p →
            colSum (cholGo sq order x i).2 q q < x q q) ∧
          x p p ≤ colSum (cholGo sq order x i).2 p p ∧
          (∀ r c, p ≤ r → (cholGo sq order x i).2 r c = x r c)) ∧
      ((cholGo sq order x i).1 = false →
        ∀ q, i ≤ q → q < order →
          colSum (cholGo sq order x i).2 q q < x q q ∧
          (cholGo sq order x i).2 q q
            = sq (x q q - colSum (cholGo sq order x i).2 q q)) := by
  intro fuel
  induction fuel with
  | zero =>
    intro i x hfu
    have hio : ¬i < order := by omega
    rw [cholGo_done_eq sq order x i hio]
    refine ⟨fun r c _ => rfl, ?_, ?_⟩
    · constructor
      · intro hc; exact absurd hc (by simp)
      · rintro ⟨p, hp1, hp2, -⟩; omega
    · intro _ q hq1 hq2; omega
  | succ n ih =>
    intro i x hfu
    by_cases hio : i < order
    · by_cases htest : x i i ≤ colSum x i i
      · rw [cholGo_fail_eq sq order x i hio htest]
        refine ⟨fun r c _ => rfl, ?_, ?_⟩
        · constructor
          · intro _
            exact ⟨i, le_refl i, hio,
              fun q hq1 hq2 => absurd (lt_of_le_of_lt hq1 hq2) (lt_irrefl i),
              htest, fun r c _ => rfl⟩
          · intro _; rfl
        · intro hfalse; exact absurd hfalse (by simp)
      · rw [cholGo_cont_eq sq order x i hio htest]
        obtain ⟨ihframe, ihfail, ihsucc⟩ :=
          ih (i + 1) (pivotRow sq order x i) (by omega)
        have hx1off : ∀ r c, r ≠ i → pivotRow sq order x i r c = x r c :=
          fun r c h => pivotRow_off sq order x i r c h
        have hframe_x : ∀ r c, r < i ∨ c < r →
            (cholGo sq order (pivotRow sq order x i) (i + 1)).2 r c = x r c := by
          intro r c hrc
          rcases hrc with hr | hc
          · rw [ihframe r c (Or.inl (by omega))]
            exact hx1off r c (by omega)
          · rw [ihframe r c (Or.inr hc)]
            exact pivotRow_low sq order x i r c hc
        have hdiag : ∀ q, i < q → pivotRow sq order x i q q = x q q :=
          fun q hq => hx1off q q (by omega)
        have hcoli :
            colSum (cholGo sq order (pivotRow sq order x i) (i + 1)).2 i i
              = colSum x i i := by
          rw [colSum, colSum]
          refine congrArg _ (List.map_congr_left fun j hj => ?_)
          have hji : j < i := List.mem_range.mp hj
          rw [hframe_x j i (Or.inl hji)]
        refine ⟨hframe_x, ?_, ?_⟩
        · constructor
          · intro hbt
            obtain ⟨p, hp1, hp2, hall, hfailp, hframe⟩ := ihfail.mp hbt
            refine ⟨p, by omega, hp2, ?_, ?_, ?_⟩
            · intro q hq1 hq2
              rcases Nat.eq_or_lt_of_le hq1 with hqi | hqi
              · cases hqi
                rw [hcoli]
                exact lt_of_not_le htest
              · have := hall q (by omega) hq2
                rwa [hdiag q hqi] at this
            · have := hfailp
              rwa [hdiag p (by omega)] at this
            · intro r c hpr
              rw [hframe r c hpr]
              exact hx1off r c (by omega)
          · rintro ⟨p, hp1, hp2, hall, hfailp, hframe⟩
            have hpi : p ≠ i := by
              intro hpeq
              subst hpeq
              rw [hcoli] at hfailp
              exact htest hfailp
            apply ihfail.mpr
            refine ⟨p, by omega, hp2, ?_, ?_, ?_⟩
            · intro q hq1 hq2
              rw [hdiag q (by omega)]
              exact hall q (by omega) hq2
            · rw [hdiag p (by omega)]
              exact hfailp
            · intro r c hpr
              rw [hframe r c hpr]
              exact (hx1off r c (by omega)).symm
        · intro hbf q hq1 hq2
          rcases Nat.eq_or_lt_of_le hq1 with hqi | hqi
          · cases hqi
            constructor
            · rw [hcoli]; exact lt_of_not_le htest
            · rw [ihframe i i (Or.inl (by omega)), pivotRow_diag, hcoli]
          · have := ihsucc hbf q (by omega) hq2
            rwa [hdiag q hqi] at this
    · rw [cholGo_done_eq sq order x i hio]
      refine ⟨fun r c _ => rfl, ?_, ?_⟩
      · constructor
        · intro hc; exact absurd hc (by simp)
        · rintro ⟨p, hp1, hp2, -⟩; omega
      · intro _ q hq1 hq2; omega

/-- Claim C6: `cholesky` fails — and the inversion stage of `newton_raphson`
then returns stage code 11 — if and only if some pivot `i` is reached at which
`Σ_{j<i} U[j][i]² ≥ A[i][i]` under the strict `>=` test of mlelr.c line 737
(every earlier pivot having passed); on success each diagonal entry holds
`sqrt(A[i][i] − Σ_{j<i} U[j][i]²)` (line 741).  The `U[j][i]` factors are read
off the returned matrix, whose rows below a pivot are frozen from the moment
that pivot runs. -/
theorem cholesky_fail_iff_pivot_test (sq : ℚ → ℚ) (A : Mat) (m : Nat) :
    ((cholesky sq A m).1 = true ↔
      ∃ i < m, (∀ p < i, colSum (cholesky sq A m).2 p p < A p p) ∧
        A i i ≤ colSum (cholesky sq A m).2 i i) ∧
    ((cholesky sq A m).1 = false →
      ∀ i < m, (cholesky sq A m).2 i i
        = sq (A i i - colSum (cholesky sq A m).2 i i)) ∧
    (newton_raphson_invert sq A m = Except.error 11 ↔
      (cholesky sq A m).1 = true) := by
  obtain ⟨hframe, hfail, hsucc⟩ := cholGo_master sq m m 0 A (by omega)
  refine ⟨⟨?_, ?_⟩, ?_, ?_⟩
  · intro h
    obtain ⟨p, _, hp2, hall, hf, _⟩ := hfail.mp h
    exact ⟨p, hp2, fun q hq => hall q (Nat.zero_le q) hq, hf⟩
  · rintro ⟨p, hp2, hall, hf⟩
    by_contra hb
    have hbf : (cholesky sq A m).1 = false := by
      cases h : (cholesky sq A m).1
      · rfl
      · exact absurd h hb
    exact absurd hf (not_le_of_lt (hsucc hbf p (Nat.zero_le p) hp2).1)
  · intro hbf i him
    exact (hsucc hbf i (Nat.zero_le i) him).2
  · cases hc : (cholesky sq A m).1
    · rw [newton_raphson_invert]
      simp only [hc, Bool.false_eq_true, if_false]
      constructor
      · intro h
        cases hb : (backsub (cholesky sq A m).2 m).1 <;>
          simp [hb] at h
      · intro h; exact absurd h (by simp)
    · rw [newton_raphson_invert]
      simp [hc]

/-- Witness for claim C6's theorem: the 1×1 matrix `[[-1]]`, where pivot 0
fails the test `0 ≥ -1`, so the factorization fails and the inversion stage
returns 11. -/
theorem cholesky_fail_iff_pivot_test_witness :
    (cholesky (fun q => q) (fun _ _ => (-1 : ℚ)) 1).1 = true ∧
    newton_raphson_invert (fun q => q) (fun _ _ => (-1 : ℚ)) 1
      = Except.error 11 := by
  have h := cholesky_fail_iff_pivot_test (fun q => q) (fun _ _ => (-1 : ℚ)) 1
  have hf : (cholesky (fun q => q) (fun _ _ => (-1 : ℚ)) 1).1 = true :=
    h.1.mpr ⟨0, Nat.zero_lt_one, fun p hp => absurd hp (Nat.not_lt_zero p),
      by simp [colSum]⟩
  exact ⟨hf, h.2.2.mpr hf⟩

/-- Claim C10: `cholesky` writes only on or above the diagonal — every
strictly-below-diagonal entry of the returned matrix equals its input value,
on success and on failure alike — and on failure at pivot `p` the rows `p` and
beyond are also untouched. -/
theorem cholesky_writes_upper_triangle_only (sq : ℚ → ℚ) (A : Mat) (m : Nat) :
    (∀ r c, c < r → (cholesky sq A m).2 r c = A r c) ∧
    ((cholesky sq A m).1 = true →
      ∃ p < m, A p p ≤ colSum (cholesky sq A m).2 p p ∧
        ∀ r c, p ≤ r → (cholesky sq A m).2 r c = A r c) := by
  obtain ⟨hframe, hfail, hsucc⟩ := cholGo_master sq m m 0 A (by omega)
  refine ⟨fun r c hc => hframe r c (Or.inr hc), fun h => ?_⟩
  obtain ⟨p, _, hp2, _, hf, hfr⟩ := hfail.mp h
  exact ⟨p, hp2, hf, hfr⟩

/-- Witness for claim C10's theorem: on the constant matrix `-1` of order 2
the entry below the diagonal still holds `-1` after `cholesky` returns. -/
theorem cholesky_writes_upper_triangle_only_witness :
    0 < 1 ∧ (cholesky (fun q => q) (fun _ _ => (-1 : ℚ)) 2).2 1 0 = -1 :=
  ⟨Nat.zero_lt_one,
   (cholesky_writes_upper_triangle_only (fun q => q) (fun _ _ => (-1 : ℚ))
       2).1 1 0 Nat.zero_lt_one⟩

/-! ## Claim C5: mass balance of tabulation and population totals -/

theorem computeM_eq_sum : ∀ tbl : List (List ℚ × ℚ),
    computeM tbl = (tbl.map Prod.snd).sum
  | [] => rfl
  | e :: rest => by
    rw [computeM, foldl_add_eq Prod.snd rest e.2, List.map_cons, List.sum_cons]

theorem xtabAdd_sum (key : List ℚ) (w : ℚ) :
    ∀ tbl : List (List ℚ × ℚ),
      ((xtabAdd tbl key w).map Prod.snd).sum = (tbl.map Prod.snd).sum + w
  | [] => by simp [xtabAdd]
  | e :: rest => by
    rw [xtabAdd]
    by_cases h : e.1 = key
    · simp only [if_pos h, List.map_cons, List.sum_cons]
      ring
    · simp only [if_neg h, List.map_cons, List.sum_cons,
        xtabAdd_sum key w rest]
      ring

theorem buildXtab_sum_aux (ds : DataSet) (mod : TabModel) :
    ∀ (rows : List (List ℚ)) (tbl : List (List ℚ × ℚ)),
      (((rows.foldl (fun tbl row =>
            let w := obsWeight ds row
            if 0 < w then xtabAdd tbl (rowKey mod row) w else tbl) tbl)).map
          Prod.snd).sum
        = (tbl.map Prod.snd).sum +
          ((rows.filter fun row => decide (0 < obsWeight ds row)).map
            (fun row => obsWeight ds row)).sum := by
  intro rows
  induction rows with
  | nil => intro tbl; simp
  | cons r rows ih =>
    intro tbl
    rw [List.foldl_cons, List.filter_cons]
    by_cases hw : 0 < obsWeight ds r
    · simp [hw, ih, xtabAdd_sum]
      ring
    · simp [hw, ih]

theorem buildXtab_skip_aux (ds : DataSet) (mod : TabModel) :
    ∀ (rows : List (List ℚ)) (tbl : List (List ℚ × ℚ)),
      rows.foldl (fun tbl row =>
          let w := obsWeight ds row
          if 0 < w then xtabAdd tbl (rowKey mod row) w else tbl) tbl
        = (rows.filter fun row => decide (0 < obsWeight ds row)).foldl
            (fun tbl row =>
              let w := obsWeight ds row
              if 0 < w then xtabAdd tbl (rowKey mod row) w else tbl) tbl := by
  intro rows
  induction rows with
  | nil => intro tbl; rfl
  | cons r rows ih =>
    intro tbl
    rw [List.foldl_cons, List.filter_cons]
    by_cases hw : 0 < obsWeight ds r
    · simp only [hw, decide_True, if_true]
      rw [List.foldl_cons, if_pos hw]
      exact ih _
    · simp only [hw, decide_False, if_false]
      exact ih tbl

theorem buildFreqQ_skip_aux (ds : DataSet) (v : Nat) :
    ∀ (rows : List (List ℚ)) (tbl : List (ℚ × ℚ)),
      rows.foldl (fun tbl row =>
          let w := obsWeight ds row
          if 0 < w then freqAddQ tbl (row.getD v 0) w else tbl) tbl
        = (rows.filter fun row => decide (0 < obsWeight ds row)).foldl
            (fun tbl row =>
              let w := obsWeight ds row
              if 0 < w then freqAddQ tbl (row.getD v 0) w else tbl) tbl := by
  intro rows
  induction rows with
  | nil => intro tbl; rfl
  | cons r rows ih =>
    intro tbl
    rw [List.foldl_cons, List.filter_cons]
    by_cases hw : 0 < obsWeight ds r
    · simp only [hw, decide_True, if_true]
      rw [List.foldl_cons, if_pos hw]
      exact ih _
    · simp only [hw, decide_False, if_false]
      exact ih tbl

theorem popScan_len : ∀ (prev : List ℚ) (rows : List (List ℚ)) (n : Nat),
    (popScan prev rows n).1.length = rows.length
  | _, [], _ => rfl
  | prev, k :: ks, n => by
    rw [popScan]
    simp [popScan_len k ks]

theorem popScan_le : ∀ (prev : List ℚ) (rows : List (List ℚ)) (n : Nat),
    n ≤ (popScan prev rows n).2
  | _, [], _ => le_refl _
  | prev, k :: ks, n => by
    rw [popScan]
    refine le_trans ?_ (popScan_le k ks (if popChange prev k then n + 1 else n))
    by_cases h : popChange prev k <;> simp [h]

theorem popScan_mem_lt : ∀ (prev : List ℚ) (rows : List (List ℚ)) (n : Nat),
    1 ≤ n → ∀ e ∈ (popScan prev rows n).1, e < (popScan prev rows n).2
  | _, [], _, _ => by intro e he; exact absurd he (by simp [popScan])
  | prev, k :: ks, n, hn => by
    intro e he
    rw [popScan] at he ⊢
    simp only [List.mem_cons] at he
    have hn' : 1 ≤ (if popChange prev k then n + 1 else n) := by
      split <;> omega
    rcases he with rfl | he
    · have h1 := popScan_le k ks (if popChange prev k then n + 1 else n)
      omega
    · exact popScan_mem_lt k ks _ hn' e he

theorem popSegments_len (keys : List (List ℚ)) :
    (popSegments keys).1.length = keys.length := by
  cases keys with
  | nil => rfl
  | cons k0 ks => simp [popSegments, popScan_len]

theorem popSegments_mem_lt (keys : List (List ℚ)) :
    ∀ e ∈ (popSegments keys).1, e < (popSegments keys).2 := by
  cases keys with
  | nil => intro e he; exact absurd he (by simp [popSegments])
  | cons k0 ks =>
    intro e he
    rw [popSegments] at he ⊢
    simp only [List.mem_cons] at he
    rcases he with rfl | he
    · exact lt_of_lt_of_le Nat.zero_lt_one (popScan_le k0 ks 1)
    · exact popScan_mem_lt k0 ks 1 (le_refl 1) e he

theorem fiber_sum : ∀ (l : List (Nat × ℚ)) (N : Nat), (∀ e ∈ l, e.1 < N) →
    (∑ p in Finset.range N,
      ((l.filter fun e => e.1 == p).map Prod.snd).sum)
      = (l.map Prod.snd).sum := by
  intro l
  induction l with
  | nil => intro N h; simp
  | cons a l ih =>
    intro N h
    have haN : a.1 < N := h a (List.mem_cons_self a l)
    have hsum : ∀ j : Nat,
        (((a :: l).filter fun e => e.1 == j).map Prod.snd).sum
          = (if j = a.1 then a.2 else 0) +
            ((l.filter fun e => e.1 == j).map Prod.snd).sum := by
      intro j
      rw [List.filter_cons]
      by_cases hj : a.1 = j
      · simp [hj]
      · simp [hj, Ne.symm hj]
    rw [Finset.sum_congr rfl fun j _ => hsum j, Finset.sum_add_distrib,
      Finset.sum_ite_eq' (Finset.range N) a.1 fun _ => a.2]
    simp [Finset.mem_range.mpr haN,
      ih N fun e he => h e (List.mem_cons_of_mem a he)]

/-- Claim C5: on a nonempty crosstab (the C code reads `xtab[0]`
unconditionally), the population totals satisfy `Σ_p n[p] = M`, and `M` is the
sum of the weights of exactly the observations with strictly positive weight;
observations with `weight ≤ 0` contribute nothing to the crosstab (hence to
`M`, `Y` and `n`, which are read off it) nor to any per-variable frequency
table. -/
theorem tabulation_mass_balance (ds : DataSet) (mod : TabModel)
    (_hne : sortXtab (buildXtab ds mod) ≠ []) :
    computeM (sortXtab (buildXtab ds mod)) = posWeightSum ds ∧
    (∑ p in Finset.range
        (popSegments ((sortXtab (buildXtab ds mod)).map Prod.fst)).2,
      popTotal (sortXtab (buildXtab ds mod)) p)
      = computeM (sortXtab (buildXtab ds mod)) ∧
    buildXtab ds mod = buildXtab (dsFilterPos ds) mod ∧
    (∀ v : Nat, buildFreqQ ds v = buildFreqQ (dsFilterPos ds) v) := by
  have hperm : (sortXtab (buildXtab ds mod)).Perm (buildXtab ds mod) :=
    List.mergeSort_perm _ _
  have hsum : ((sortXtab (buildXtab ds mod)).map Prod.snd).sum
      = ((buildXtab ds mod).map Prod.snd).sum :=
    (hperm.map Prod.snd).sum_eq
  refine ⟨?_, ?_, ?_, ?_⟩
  · rw [computeM_eq_sum, hsum, buildXtab, buildXtab_sum_aux ds mod ds.obs []]
    simp [posWeightSum]
  · have hlen : ((sortXtab (buildXtab ds mod)).map Prod.snd).length
        ≤ (popSegments
            ((sortXtab (buildXtab ds mod)).map Prod.fst)).1.length := by
      rw [popSegments_len, List.length_map, List.length_map]
    have hmem : ∀ e ∈ (popSegments
          ((sortXtab (buildXtab ds mod)).map Prod.fst)).1.zip
            ((sortXtab (buildXtab ds mod)).map Prod.snd),
        e.1 < (popSegments ((sortXtab (buildXtab ds mod)).map Prod.fst)).2 := by
      intro e he
      obtain ⟨e1, e2⟩ := e
      exact popSegments_mem_lt _ e1 (List.of_mem_zip he).1
    have hz : (((popSegments
            ((sortXtab (buildXtab ds mod)).map Prod.fst)).1.zip
          ((sortXtab (buildXtab ds mod)).map Prod.snd)).map Prod.snd)
        = (sortXtab (buildXtab ds mod)).map Prod.snd :=
      List.map_snd_zip _ _ hlen
    rw [computeM_eq_sum]
    calc (∑ p in Finset.range
            (popSegments ((sortXtab (buildXtab ds mod)).map Prod.fst)).2,
          popTotal (sortXtab (buildXtab ds mod)) p)
        = (((popSegments ((sortXtab (buildXtab ds mod)).map Prod.fst)).1.zip
              ((sortXtab (buildXtab ds mod)).map Prod.snd)).map Prod.snd).sum :=
          fiber_sum _ _ hmem
      _ = ((sortXtab (buildXtab ds mod)).map Prod.snd).sum := by rw [hz]
  · rw [buildXtab, buildXtab_skip_aux ds mod ds.obs []]
    rfl
  · intro v
    rw [buildFreqQ, buildFreqQ_skip_aux ds v ds.obs []]
    rfl

/-- Witness for claim C5's theorem: a one-observation dataset of value 5 and
implicit weight 1 (no weight column); its crosstab is nonempty and the total
frequency equals the positive-weight sum 1. -/
theorem tabulation_mass_balance_witness :
    sortXtab (buildXtab ⟨[[5]], none⟩ ⟨[], 0⟩) ≠ [] ∧
    computeM (sortXtab (buildXtab ⟨[[5]], none⟩ ⟨[], 0⟩))
      = posWeightSum ⟨[[5]], none⟩ :=
  ⟨by simp [sortXtab, buildXtab, obsWeight, rowKey, xtabAdd, List.mergeSort],
   (tabulation_mass_balance ⟨[[5]], none⟩ ⟨[], 0⟩
     (by simp [sortXtab, buildXtab, obsWeight, rowKey, xtabAdd,
       List.mergeSort])).1⟩

end Mlelr
